import Mathlib

/-!
Verification of the Lexington, MA waste-collection source
(`custom_components/waste_collection_schedule/waste_collection_schedule/source/lexingtonma_gov.py`).

The Python module is shallowly embedded as executable Lean definitions:

* A calendar date is the number of days since 0001-01-01 (Python's
  `date.toordinal() - 1`).  In the proleptic Gregorian calendar that day is a
  Monday, so Python's `date.weekday()` (0 = Monday .. 6 = Sunday) is `d % 7`,
  and `date + timedelta(days = k)` is `d + k`.
* Python strings handled by the source are `List Char`; `str.lower`, `str.strip`,
  `str.rsplit(" - ", 1)` and friends are embedded below.
* The network / BeautifulSoup layer is abstracted away: the embedded functions
  take the already-extracted text structure (list-item texts, holiday dates) as
  arguments, exactly as the Python functions receive them after scraping.
* Python `while` loops are embedded with an explicit fuel argument that is
  always at least the number of iterations the loop can perform, so the
  embedded function is structurally recursive and computable by `decide`.
-/

/-! ## Dates -/

/-- Embedding of `Source._next_weekday` (lines 302-309):
`days_ahead = weekday - start_date.weekday(); if days_ahead < 0: days_ahead += 7;
return start_date + timedelta(days=days_ahead)`. -/
def nextWeekday (startDate weekday : Nat) : Nat :=
  startDate +
    (if (weekday : Int) - (↑(startDate % 7)) < 0
      then (weekday : Int) - ↑(startDate % 7) + 7
      else (weekday : Int) - ↑(startDate % 7)).toNat

/-- Days from 0001-01-01 up to January 1 of year `y` (the day-number of
January 1 of year `y`), proleptic Gregorian; mirrors CPython's
`datetime._days_before_year`. -/
def daysBeforeYear (y : Nat) : Nat :=
  365 * (y - 1) + (y - 1) / 4 - (y - 1) / 100 + (y - 1) / 400

/-- Auxiliary linear search for the year containing a day-number; `fuel`
bounds the search and always suffices because year numbers grow at most as
fast as day-numbers. -/
def yearOfAux (n : Nat) : Nat → Nat → Nat
  | 0, y => y
  | fuel + 1, y => if daysBeforeYear (y + 1) ≤ n then yearOfAux n fuel (y + 1) else y

/-- The year of a day-number (embedding of Python's `date.year`). -/
def yearOf (n : Nat) : Nat := yearOfAux n (n + 1) 1

/-- Embedding of `date(y, 12, 31)`: the day-number of December 31 of year `y`. -/
def dec31 (y : Nat) : Nat := daysBeforeYear (y + 1) - 1

/-- Embedding of `max(h.year for h in future_holidays)` (line 93); Python's
`max` of a non-empty list of years (all years are `≥ 1`, so folding from `0`
agrees with Python's `max`). -/
def maxYearOf (l : List Nat) : Nat := (l.map yearOf).foldl Nat.max 0

/-! ## The fetch loop (lines 97-121) -/

/-- Embedding of the `Collection(collection_date, "Trash, recycling, & compost",
icon="mdi:recycle")` records appended by `fetch`. -/
structure Collection where
  date : Nat
  label : String
  icon : String
deriving DecidableEq

/-- Error conditions raised by the source (the imported
`SourceArgument…` exceptions, plus the bare `Exception` raised at line 90). -/
inductive SourceError where
  | argumentNotFound (arg : String)
  | argumentNotFoundWithSuggestions (arg : String) (value : List Char)
      (suggestions : List (List Char))
  | argAmbiguousWithSuggestions (arg : String) (value : List Char)
      (suggestions : List (List Char))
  | noFutureHolidays
deriving DecidableEq

/-- Embedding of the holiday-delay check and shift (lines 102-111): if any
future holiday `h` satisfies `h <= collection_date` and
`h >= collection_date - timedelta(days=collection_date.weekday())`, the
collection date is shifted forward by one day. -/
def adjustDate (futureHolidays : List Nat) (cd : Nat) : Nat :=
  if futureHolidays.any (fun h => decide (h ≤ cd) && decide (cd - cd % 7 ≤ h))
    then cd + 1 else cd

/-- Embedding of the `while current_date <= end_date` loop of `fetch`
(lines 99-118), with explicit fuel (one unit per iteration). -/
def fetchLoopAux (futureHolidays : List Nat) (pd today endD : Nat) :
    Nat → Nat → List Collection
  | 0, _ => []
  | fuel + 1, cur =>
      if cur ≤ endD then
        let cd := adjustDate futureHolidays (nextWeekday cur pd)
        let rest := fetchLoopAux futureHolidays pd today endD fuel (cur + 7)
        if today ≤ cd ∧ cd ≤ endD then
          { date := cd, label := "Trash, recycling, & compost",
            icon := "mdi:recycle" } :: rest
        else rest
      else []

/-- The fetch loop with sufficient fuel: the loop advances `current_date` by 7
each iteration while `current_date <= end_date`, so it performs at most
`endD + 1` iterations from any starting point. -/
def fetchLoop (futureHolidays : List Nat) (pd today endD cur : Nat) :
    List Collection :=
  fetchLoopAux futureHolidays pd today endD (endD + 1) cur

/-- Embedding of `Source.fetch` after the street has been resolved to a pickup
weekday `pd` (lines 81-121): filter holidays to those on/after today, fail when
none remain, otherwise generate collections until December 31 of the latest
future holiday's year. -/
def fetchAfterMatch (holidays : List Nat) (today pd : Nat) :
    Except SourceError (List Collection) :=
  if (holidays.filter (fun h => decide (today ≤ h))).isEmpty then
    Except.error SourceError.noFutureHolidays
  else
    Except.ok (fetchLoop (holidays.filter (fun h => decide (today ≤ h))) pd today
      (dec31 (maxYearOf (holidays.filter (fun h => decide (today ≤ h))))) today)

/-! ## Strings -/

/-- Python strings processed by the source (all page content handled by the
source is ASCII, where `str.lower`, `str.upper` agree with the `Char`
functions used below). -/
abbrev PyStr := List Char

/-- Embedding of `str.lower`. -/
def lowerStr (s : PyStr) : PyStr := s.map Char.toLower

/-- Embedding of `str.upper`. -/
def upperStr (s : PyStr) : PyStr := s.map Char.toUpper

/-- Embedding of `str.strip` (drop whitespace from both ends). -/
def stripStr (s : PyStr) : PyStr :=
  ((s.dropWhile Char.isWhitespace).reverse.dropWhile Char.isWhitespace).reverse

/-- Embedding of `s.rsplit(sep, 1)` for a separator occurring in `s`: split at
the last occurrence of `sep`; `none` when `sep` does not occur (the Python code
guards with `sep in s` / `sep not in s` before calling `rsplit`). -/
def rsplitOnce (sep s : PyStr) : Option (PyStr × PyStr) :=
  match ((List.range (s.length + 1)).filter
      (fun i => sep.isPrefixOf (s.drop i))).getLast? with
  | some i => some (s.take i, s.drop (i + sep.length))
  | none => none

/-- Embedding of `WEEKDAY_MAP` (lines 29-37). -/
def weekdayMap : List (PyStr × Nat) :=
  [("MONDAY".toList, 0), ("TUESDAY".toList, 1), ("WEDNESDAY".toList, 2),
   ("THURSDAY".toList, 3), ("FRIDAY".toList, 4), ("SATURDAY".toList, 5),
   ("SUNDAY".toList, 6)]

/-! ## The street directory -/

/-- The street directory built by `_parse_streets`: a Python dict as an
insertion-ordered association list. -/
abbrev StreetsDict := List (PyStr × Nat)

/-- Python dict assignment `d[k] = v`: overwrite in place when the key exists,
else append (insertion order preserved). -/
def dictInsert (d : StreetsDict) (k : PyStr) (v : Nat) : StreetsDict :=
  if d.any (fun kv => kv.1 == k) then
    d.map (fun kv => if kv.1 == k then (k, v) else kv)
  else d ++ [(k, v)]

/-- A top-level `<li>` of the schedule page as consumed by `_parse_streets`:
its stripped text (`li.get_text(strip=True)`) and, when it contains a nested
`<ul>`, the stripped texts of that nested list's items. -/
structure LiItem where
  text : PyStr
  nested : Option (List PyStr)
deriving DecidableEq

/-- Processing of one nested segment line of a multi-segment street
(lines 225-245): `rsplit(" - ", 1)` into segment and weekday, skip when the
separator is missing or the weekday is unrecognized. -/
def processSub (mainStreet : PyStr) (d : StreetsDict) (subText : PyStr) : StreetsDict :=
  match rsplitOnce (" - ".toList) subText with
  | none => d
  | some (segmentStreet, segmentDay) =>
    match weekdayMap.lookup (upperStr segmentDay) with
    | some wday =>
        dictInsert d
          (mainStreet ++ " (".toList ++ stripStr (lowerStr segmentStreet) ++ ")".toList)
          wday
    | none => d

/-- Processing of one top-level `<li>` (lines 204-268): a nested list plus a
colon makes a multi-segment street; otherwise a regular `"<name> - <DAY>"`
entry. -/
def processLi (d : StreetsDict) (li : LiItem) : StreetsDict :=
  match li.nested with
  | some subs =>
    if (':' : Char) ∈ li.text then
      subs.foldl
        (processSub (stripStr (lowerStr (li.text.takeWhile (fun c => decide (c ≠ ':')))))) d
    else d
  | none =>
    match rsplitOnce (" - ".toList) li.text with
    | none => d
    | some (lineStreet, lineDay) =>
      match weekdayMap.lookup (upperStr lineDay) with
      | some wday => dictInsert d (stripStr (lowerStr lineStreet)) wday
      | none => d

/-- Embedding of `Source._parse_streets` (lines 194-272). -/
def parseStreets (uls : List (List LiItem)) : StreetsDict :=
  uls.foldl (fun d ul => ul.foldl processLi d) []

/-! ## difflib: `SequenceMatcher.ratio` and `get_close_matches`

`_get_normal_pickup_day` calls
`difflib.get_close_matches(street, streets_dict.keys(), n=5, cutoff=0.7)`.
The relevant part of the Python standard library is embedded here:
`SequenceMatcher` with `isjunk=None`, and `autojunk` inert because it only
applies to sequences of length ≥ 200 (street names are far shorter), so the
junk machinery never fires.  `ratio()` is `2 * M / T` where `M` is the total
size of the matching blocks and `T` the sum of the two lengths; ratio
comparisons against other ratios and against the cutoff `0.7` are embedded as
cross-multiplied natural-number comparisons, which agree with the real-number
comparisons whenever the word is non-empty (the source always passes the
normalized, non-empty input street). -/

/-- One row of `find_longest_match`'s `j2len` dynamic programming (scanning
`a[i]`): entry `j` is the length of the common run ending at `a[i]`, `b[j]`,
for `j` in `[blo, bhi)`. -/
def flmRow (c : Char) (b : PyStr) (blo bhi : Nat) (prev : List Nat) : List Nat :=
  (List.range b.length).map fun j =>
    if b.getD j ' ' = c ∧ blo ≤ j ∧ j < bhi then
      (if j = 0 then 0 else prev.getD (j - 1) 0) + 1
    else 0

/-- Scan a row in increasing `j`, keeping the first strictly-better match
(mirrors the `if k > bestsize` update of `find_longest_match`). -/
def flmScan (row : List Nat) (i : Nat) (best : Nat × Nat × Nat) : Nat × Nat × Nat :=
  (List.range row.length).foldl
    (fun bst j =>
      if bst.2.2 < row.getD j 0 then (i + 1 - row.getD j 0, j + 1 - row.getD j 0, row.getD j 0)
      else bst)
    best

/-- The first extension `while` loop of `find_longest_match` (the junk set is
empty, so the junk conditions are dropped); the fuel is `besti`, which the
loop decrements. -/
def extendBackAux (a b : PyStr) (alo blo : Nat) :
    Nat → Nat → Nat → Nat → Nat × Nat × Nat
  | 0, besti, bestj, bestsize => (besti, bestj, bestsize)
  | fuel + 1, besti, bestj, bestsize =>
    if alo < besti ∧ blo < bestj ∧ a.getD (besti - 1) ' ' = b.getD (bestj - 1) ' ' then
      extendBackAux a b alo blo fuel (besti - 1) (bestj - 1) (bestsize + 1)
    else (besti, bestj, bestsize)

/-- The second extension `while` loop; the fuel is `ahi` (each step grows
`bestsize`, which stays below `ahi`). -/
def extendFwdAux (a b : PyStr) (ahi bhi besti bestj : Nat) : Nat → Nat → Nat
  | 0, bestsize => bestsize
  | fuel + 1, bestsize =>
    if besti + bestsize < ahi ∧ bestj + bestsize < bhi ∧
        a.getD (besti + bestsize) ' ' = b.getD (bestj + bestsize) ' ' then
      extendFwdAux a b ahi bhi besti bestj fuel (bestsize + 1)
    else bestsize

/-- Embedding of `SequenceMatcher.find_longest_match(alo, ahi, blo, bhi)` on
sequences `a`, `b` with no junk: the dynamic-programming scan over
`i ∈ [alo, ahi)` followed by the two extension loops. -/
def findLongestMatch (a b : PyStr) (alo ahi blo bhi : Nat) : Nat × Nat × Nat :=
  let scan := (List.range' alo (ahi - alo)).foldl
    (fun st i =>
      let row := flmRow (a.getD i ' ') b blo bhi st.1
      (row, flmScan row i st.2))
    (List.replicate b.length 0, (alo, blo, 0))
  let back := extendBackAux a b alo blo scan.2.1 scan.2.1 scan.2.2.1 scan.2.2.2
  (back.1, back.2.1, extendFwdAux a b ahi bhi back.1 back.2.1 ahi back.2.2)

/-- Embedding of `get_matching_blocks`' recursive decomposition, summing the
matching block sizes (which is all `ratio()` needs).  The fuel bounds the
recursion depth; `a.length + b.length + 1` always suffices because every
recursive call strictly shrinks the combined span. -/
def totalMatchesAux (a b : PyStr) : Nat → Nat → Nat → Nat → Nat → Nat
  | 0, _, _, _, _ => 0
  | fuel + 1, alo, ahi, blo, bhi =>
    let m := findLongestMatch a b alo ahi blo bhi
    if m.2.2 = 0 then 0
    else m.2.2 +
      (if alo < m.1 ∧ blo < m.2.1 then totalMatchesAux a b fuel alo m.1 blo m.2.1 else 0) +
      (if m.1 + m.2.2 < ahi ∧ m.2.1 + m.2.2 < bhi then
        totalMatchesAux a b fuel (m.1 + m.2.2) ahi (m.2.1 + m.2.2) bhi
      else 0)

/-- Total size of the matching blocks between `a` and `b` (the `matches` sum of
`SequenceMatcher.ratio`). -/
def totalMatches (a b : PyStr) : Nat :=
  totalMatchesAux a b (a.length + b.length + 1) 0 a.length 0 b.length

/-- Numerator of `ratio()` for candidate `x` against `word`: `2 * matches`. -/
def ratioNum (word x : PyStr) : Nat := 2 * totalMatches x word

/-- Denominator of `ratio()` for candidate `x` against `word`:
`len(x) + len(word)`. -/
def ratioDen (word x : PyStr) : Nat := x.length + word.length

/-- Strict lexicographic order on Python strings (`<` on `str`, by code
point). -/
def strLt : PyStr → PyStr → Bool
  | [], [] => false
  | [], _ :: _ => true
  | _ :: _, [] => false
  | a :: as, b :: bs => decide (a < b) || (decide (a = b) && strLt as bs)

/-- The descending order `heapq._nlargest` uses on `(ratio, candidate)` pairs:
`x` precedes `y` when its ratio is larger (cross-multiplied comparison), ties
broken by the lexicographically larger string. -/
def closeMatchLe (word x y : PyStr) : Bool :=
  decide (ratioNum word y * ratioDen word x < ratioNum word x * ratioDen word y) ||
    (decide (ratioNum word x * ratioDen word y = ratioNum word y * ratioDen word x) &&
      !(strLt x y))

/-- Insertion of `x` into a list sorted by `le`. -/
def insertSorted {α : Type} (le : α → α → Bool) (x : α) : List α → List α
  | [] => [x]
  | y :: ys => if le x y then x :: y :: ys else y :: insertSorted le x ys

/-- Sorting by `le`.  Applied with `closeMatchLe`, this is the descending sort
that `heapq._nlargest(n, result)` performs on the scored candidates: distinct
keys give distinct `(ratio, string)` pairs, so the descending order is unique
and any correct sort yields exactly Python's list. -/
def sortCands {α : Type} (le : α → α → Bool) : List α → List α
  | [] => []
  | x :: xs => insertSorted le x (sortCands le xs)

/-- Embedding of `difflib.get_close_matches(word, possibilities, n, cutoff)`
at the source's fixed `cutoff = 0.7`: keep the possibilities whose ratio is
`≥ 7/10` (`7 * T ≤ 10 * 2M`, which also agrees with Python's `1.0 ≥ 0.7` in
the degenerate `T = 0` case), sort them by descending `(ratio, string)` and
keep the first `n`. -/
def getCloseMatches (word : PyStr) (possibilities : List PyStr) (n : Nat) : List PyStr :=
  (sortCands (closeMatchLe word)
    (possibilities.filter
      (fun x => decide (7 * ratioDen word x ≤ 10 * ratioNum word x)))).take n

/-! ## The street matcher -/

/-- Embedding of `Source._get_normal_pickup_day` (lines 123-154).  The
argument is the result of `_load_streets_dict` (`none` when loading failed,
which the `if not streets_dict` test treats like an empty dict).  The Python
function's returned value is modelled as `Option Nat`: each
`return streets_dict[k]` becomes `Except.ok (d.lookup k)`, so the model also
records whether a dict subscript could miss. -/
def getNormalPickupDay (inputStreet : PyStr) (streetsDict : Option StreetsDict) :
    Except SourceError (Option Nat) :=
  match streetsDict with
  | none => Except.error (SourceError.argumentNotFound ("street"))
  | some d =>
    if d.isEmpty then Except.error (SourceError.argumentNotFound ("street"))
    else
      match d.lookup inputStreet with
      | some v => Except.ok (some v)
      | none =>
        if (getCloseMatches inputStreet (d.map (fun kv => kv.1)) 5).length = 1 then
          Except.ok
            (d.lookup ((getCloseMatches inputStreet (d.map (fun kv => kv.1)) 5).headD []))
        else if 1 < (getCloseMatches inputStreet (d.map (fun kv => kv.1)) 5).length then
          Except.error (SourceError.argAmbiguousWithSuggestions ("street") inputStreet
            (getCloseMatches inputStreet (d.map (fun kv => kv.1)) 5))
        else
          Except.error (SourceError.argumentNotFoundWithSuggestions ("street") inputStreet
            (d.map (fun kv => kv.1)))

/-- Embedding of `Source.fetch` (lines 73-121): resolve the pickup day
(including the `if normal_pickup_day is None` check of lines 76-78), then run
the holiday-adjusted generator. -/
def fetch (inputStreet : PyStr) (streetsDict : Option StreetsDict)
    (holidays : List Nat) (today : Nat) : Except SourceError (List Collection) :=
  match getNormalPickupDay inputStreet streetsDict with
  | Except.error e => Except.error e
  | Except.ok none => Except.error (SourceError.argumentNotFound ("street"))
  | Except.ok (some pd) => fetchAfterMatch holidays today pd

/-! ## Basic lemmas about `nextWeekday`, `adjustDate` and the loop -/

theorem nextWeekday_ge (d w : Nat) : d ≤ nextWeekday d w := by
  unfold nextWeekday; split <;> omega

theorem nextWeekday_le (d w : Nat) (hw : w ≤ 6) : nextWeekday d w ≤ d + 6 := by
  unfold nextWeekday; split <;> omega

theorem nextWeekday_mod (d w : Nat) (hw : w ≤ 6) : (nextWeekday d w) % 7 = w := by
  unfold nextWeekday; split <;> omega

theorem nextWeekday_eq_self (d w : Nat) (h : d % 7 = w) : nextWeekday d w = d := by
  unfold nextWeekday; split <;> omega

theorem adjustDate_ge (f : List Nat) (cd : Nat) : cd ≤ adjustDate f cd := by
  unfold adjustDate; split <;> omega

theorem adjustDate_le (f : List Nat) (cd : Nat) : adjustDate f cd ≤ cd + 1 := by
  unfold adjustDate; split <;> omega

/-- Every record emitted by the loop has a date that is at least the loop
variable, is an adjusted next-pickup-day, and lies in `[today, endD]`. -/
theorem mem_fetchLoopAux (f : List Nat) (pd today endD : Nat) :
    ∀ fuel cur c, c ∈ fetchLoopAux f pd today endD fuel cur →
      cur ≤ c.date ∧ today ≤ c.date ∧ c.date ≤ endD ∧
        ∃ s, c.date = adjustDate f (nextWeekday s pd) := by
  intro fuel
  induction fuel with
  | zero => intro cur c hc; simp [fetchLoopAux] at hc
  | succ n ih =>
    intro cur c hc
    unfold fetchLoopAux at hc
    by_cases hcur : cur ≤ endD
    · simp only [if_pos hcur] at hc
      by_cases hemit :
          today ≤ adjustDate f (nextWeekday cur pd) ∧
            adjustDate f (nextWeekday cur pd) ≤ endD
      · rw [if_pos hemit] at hc
        rcases List.mem_cons.mp hc with h | h
        · subst h
          refine ⟨?_, hemit.1, hemit.2, cur, rfl⟩
          exact le_trans (nextWeekday_ge cur pd) (adjustDate_ge f _)
        · have := ih (cur + 7) c h
          exact ⟨by omega, this.2.1, this.2.2.1, this.2.2.2⟩
      · rw [if_neg hemit] at hc
        have := ih (cur + 7) c hc
        exact ⟨by omega, this.2.1, this.2.2.1, this.2.2.2⟩
    · simp [if_neg hcur] at hc

/-- The emitted dates are pairwise non-decreasing. -/
theorem pairwise_fetchLoopAux (f : List Nat) (pd today endD : Nat) (hpd : pd ≤ 6) :
    ∀ fuel cur,
      List.Pairwise (fun a b => a.date ≤ b.date) (fetchLoopAux f pd today endD fuel cur) := by
  intro fuel
  induction fuel with
  | zero => intro cur; simp [fetchLoopAux]
  | succ n ih =>
    intro cur
    unfold fetchLoopAux
    by_cases hcur : cur ≤ endD
    · simp only [if_pos hcur]
      by_cases hemit :
          today ≤ adjustDate f (nextWeekday cur pd) ∧
            adjustDate f (nextWeekday cur pd) ≤ endD
      · rw [if_pos hemit]
        refine List.Pairwise.cons ?_ (ih (cur + 7))
        intro c hc
        show adjustDate f (nextWeekday cur pd) ≤ c.date
        have hmem := mem_fetchLoopAux f pd today endD n (cur + 7) c hc
        have h1 : adjustDate f (nextWeekday cur pd) ≤ cur + 7 := by
          have := nextWeekday_le cur pd hpd
          have := adjustDate_le f (nextWeekday cur pd)
          omega
        omega
      · rw [if_neg hemit]; exact ih (cur + 7)
    · simp [if_neg hcur]

/-! ## Claim C3 -/

/-- C3: for every start date `d` and weekday `w ∈ 0..6`, `_next_weekday d w`
returns a date `r ≥ d` with `r.weekday() = w` and `r - d ∈ [0, 6]`; if
`d.weekday() = w` then `r = d`. -/
theorem next_weekday_spec (d w : Nat) (hw : w ≤ 6) :
    d ≤ nextWeekday d w ∧ (nextWeekday d w) % 7 = w ∧
      nextWeekday d w - d ≤ 6 ∧ (d % 7 = w → nextWeekday d w = d) := by
  refine ⟨nextWeekday_ge d w, nextWeekday_mod d w hw, ?_,
    fun h => nextWeekday_eq_self d w h⟩
  have h6 := nextWeekday_le d w hw
  omega

theorem next_weekday_spec_witness :
    10 ≤ nextWeekday 10 3 ∧ (nextWeekday 10 3) % 7 = 3 ∧
      nextWeekday 10 3 - 10 ≤ 6 ∧ (10 % 7 = 3 → nextWeekday 10 3 = 10) :=
  next_weekday_spec 10 3 (by decide)

/-! ## Claim C10 -/

/-- C10: `_next_weekday` is idempotent in its first argument for weekday
targets `0..6`, and commutes with stepping the start date by a week. -/
theorem next_weekday_idempotent_shift (d w : Nat) (hw : w ≤ 6) :
    nextWeekday (nextWeekday d w) w = nextWeekday d w ∧
      nextWeekday (d + 7) w = nextWeekday d w + 7 := by
  constructor
  · exact nextWeekday_eq_self (nextWeekday d w) w (nextWeekday_mod d w hw)
  · unfold nextWeekday
    have h7 : (d + 7) % 7 = d % 7 := by omega
    rw [h7]
    split <;> omega

theorem next_weekday_idempotent_shift_witness :
    nextWeekday (nextWeekday 10 3) 3 = nextWeekday 10 3 ∧
      nextWeekday (10 + 7) 3 = nextWeekday 10 3 + 7 :=
  next_weekday_idempotent_shift 10 3 (by decide)

/-! ## Helper lemmas about `Nat.max` folding and years -/

theorem le_foldl_max_init : ∀ (l : List Nat) (a : Nat), a ≤ l.foldl Nat.max a := by
  intro l
  induction l with
  | nil => intro a; exact le_refl a
  | cons x xs ih =>
    intro a
    exact le_trans (Nat.le_max_left a x) (ih (Nat.max a x))

theorem foldl_max_le_of_mem :
    ∀ (l : List Nat) (a x : Nat), x ∈ l → x ≤ l.foldl Nat.max a := by
  intro l
  induction l with
  | nil => intro a x hx; simp at hx
  | cons y ys ih =>
    intro a x hx
    rcases List.mem_cons.mp hx with h | h
    · subst h
      exact le_trans (Nat.le_max_right a x) (le_foldl_max_init ys (Nat.max a x))
    · exact ih (Nat.max a y) x h

theorem foldl_max_mem :
    ∀ (l : List Nat) (a : Nat), l.foldl Nat.max a = a ∨ l.foldl Nat.max a ∈ l := by
  intro l
  induction l with
  | nil => intro a; left; rfl
  | cons y ys ih =>
    intro a
    rcases ih (Nat.max a y) with h | h
    · rcases Nat.le_total a y with hay | hya
      · right
        have hmax : Nat.max a y = y := Nat.max_eq_right hay
        rw [List.foldl_cons, h, hmax]
        exact List.mem_cons_self y ys
      · left
        have hmax : Nat.max a y = a := Nat.max_eq_left hya
        rw [List.foldl_cons, h, hmax]
    · right
      exact List.mem_cons_of_mem y h

theorem yearOfAux_ge : ∀ (fuel n y : Nat), y ≤ yearOfAux n fuel y := by
  intro fuel
  induction fuel with
  | zero => intro n y; exact le_refl y
  | succ m ih =>
    intro n y
    unfold yearOfAux
    split
    · exact le_trans (Nat.le_succ y) (ih n (y + 1))
    · exact le_refl y

theorem yearOf_pos (n : Nat) : 1 ≤ yearOf n := yearOfAux_ge (n + 1) n 1

/-- For a non-empty list, the folded maximum of the years is itself one of the
years (the fold starts at `0` and every year is `≥ 1`). -/
theorem maxYearOf_mem (l : List Nat) (hl : l ≠ []) : maxYearOf l ∈ l.map yearOf := by
  rcases foldl_max_mem (l.map yearOf) 0 with h | h
  · exfalso
    rcases l with _ | ⟨x, xs⟩
    · exact hl rfl
    · have hx : yearOf x ∈ (x :: xs).map yearOf := by
        simp [List.map_cons]
      have h1 := foldl_max_le_of_mem ((x :: xs).map yearOf) 0 (yearOf x) hx
      have h2 := yearOf_pos x
      omega
  · exact h

/-! ## Claim C1 -/

/-- C1: a collection date computed during `fetch` is shifted forward by exactly
one day if and only if some future holiday `h` (a holiday on/after today)
satisfies `collection_date - collection_date.weekday() ≤ h ≤ collection_date`;
the shift is a single fixed `+1` day (never more, regardless of how many
holidays fall in the span), and every emitted date is the once-adjusted next
pickup day of some loop anchor. -/
theorem fetch_holiday_shift_iff (holidays : List Nat) (today pd endD cur : Nat) :
    (∀ cd, adjustDate (holidays.filter (fun h => decide (today ≤ h))) cd = cd ∨
        adjustDate (holidays.filter (fun h => decide (today ≤ h))) cd = cd + 1) ∧
    (∀ cd, adjustDate (holidays.filter (fun h => decide (today ≤ h))) cd = cd + 1 ↔
        ∃ h ∈ holidays, today ≤ h ∧ cd - cd % 7 ≤ h ∧ h ≤ cd) ∧
    (∀ c ∈ fetchLoop (holidays.filter (fun h => decide (today ≤ h))) pd today endD cur,
        ∃ s, c.date =
          adjustDate (holidays.filter (fun h => decide (today ≤ h))) (nextWeekday s pd)) := by
  refine ⟨?_, ?_, ?_⟩
  · intro cd
    unfold adjustDate
    split
    · right; rfl
    · left; rfl
  · intro cd
    unfold adjustDate
    split
    · rename_i hany
      simp only [List.any_eq_true, List.mem_filter, Bool.and_eq_true,
        decide_eq_true_eq] at hany
      constructor
      · intro _
        obtain ⟨x, ⟨hx, hxt⟩, hx1, hx2⟩ := hany
        exact ⟨x, hx, hxt, hx2, hx1⟩
      · intro _; rfl
    · rename_i hany
      simp only [List.any_eq_true, List.mem_filter, Bool.and_eq_true,
        decide_eq_true_eq] at hany
      constructor
      · intro hcd; omega
      · rintro ⟨x, hx, hxt, hx2, hx1⟩
        exact absurd ⟨x, ⟨hx, hxt⟩, hx1, hx2⟩ hany
  · intro c hc
    unfold fetchLoop at hc
    exact (mem_fetchLoopAux _ pd today endD _ cur c hc).2.2.2

theorem fetch_holiday_shift_iff_witness :
    adjustDate (List.filter (fun h => decide (0 ≤ h)) [3]) 3 = 3 + 1 :=
  ((fetch_holiday_shift_iff [3] 0 0 0 0).2.1 3).mpr ⟨3, by decide, by decide, by decide, by decide⟩

/-- Any successful run of the holiday stage of `fetch` emits pairwise
non-decreasing dates. -/
theorem fetchAfterMatch_pairwise (holidays : List Nat) (today pd : Nat) (l : List Collection)
    (hpd : pd ≤ 6) (hfetch : fetchAfterMatch holidays today pd = Except.ok l) :
    List.Pairwise (fun a b => a.date ≤ b.date) l := by
  unfold fetchAfterMatch at hfetch
  split at hfetch
  · exact absurd hfetch (by simp)
  · injection hfetch with h
    rw [← h]
    exact pairwise_fetchLoopAux _ pd today _ hpd _ today

/-! ## Claim C4 -/

/-- C4: `fetch` raises the unrecoverable "no future holidays" error exactly
when no parsed holiday is on/after today (and then emits no records); the
holiday filter keeps exactly the holidays `h ≥ today`; on success the output is
generated up to December 31 of the maximum year among the kept holidays (the
folded `max_year` is the maximum of the kept holidays' years), and every
emitted record lies in `[today, end_date]`. -/
theorem fetch_no_future_holidays (holidays : List Nat) (today pd : Nat) :
    (fetchAfterMatch holidays today pd = Except.error SourceError.noFutureHolidays ↔
      ∀ h ∈ holidays, h < today) ∧
    (∀ h, h ∈ holidays.filter (fun x => decide (today ≤ x)) ↔ h ∈ holidays ∧ today ≤ h) ∧
    (∀ l, fetchAfterMatch holidays today pd = Except.ok l →
      l = fetchLoop (holidays.filter (fun x => decide (today ≤ x))) pd today
            (dec31 (maxYearOf (holidays.filter (fun x => decide (today ≤ x))))) today ∧
      maxYearOf (holidays.filter (fun x => decide (today ≤ x))) ∈
        (holidays.filter (fun x => decide (today ≤ x))).map yearOf ∧
      (∀ y ∈ (holidays.filter (fun x => decide (today ≤ x))).map yearOf,
        y ≤ maxYearOf (holidays.filter (fun x => decide (today ≤ x)))) ∧
      (∀ c ∈ l, today ≤ c.date ∧
        c.date ≤ dec31 (maxYearOf (holidays.filter (fun x => decide (today ≤ x)))))) := by
  refine ⟨?_, ?_, ?_⟩
  · constructor
    · intro herr
      unfold fetchAfterMatch at herr
      split at herr
      · rename_i hemp
        rw [List.isEmpty_iff] at hemp
        rw [List.filter_eq_nil_iff] at hemp
        intro h hh
        have := hemp h hh
        simp only [decide_eq_true_eq] at this
        omega
      · exact absurd herr (by simp)
    · intro hall
      unfold fetchAfterMatch
      have hemp : (holidays.filter (fun x => decide (today ≤ x))).isEmpty = true := by
        rw [List.isEmpty_iff, List.filter_eq_nil_iff]
        intro h hh
        simp only [decide_eq_true_eq]
        have := hall h hh
        omega
      rw [if_pos hemp]
  · intro h
    rw [List.mem_filter]
    simp only [decide_eq_true_eq]
  · intro l hl
    unfold fetchAfterMatch at hl
    split at hl
    · exact absurd hl (by simp)
    · rename_i hemp
      injection hl with h
      have hne : holidays.filter (fun x => decide (today ≤ x)) ≠ [] := by
        intro hc
        rw [List.isEmpty_iff] at hemp
        exact hemp hc
      refine ⟨h.symm, maxYearOf_mem _ hne, ?_, ?_⟩
      · intro y hy
        exact foldl_max_le_of_mem _ 0 y hy
      · intro c hc
        rw [← h] at hc
        unfold fetchLoop at hc
        have := mem_fetchLoopAux _ pd today _ _ today c hc
        exact ⟨this.2.1, this.2.2.1⟩

theorem fetch_no_future_holidays_witness :
    fetchAfterMatch [3] 5 0 = Except.error SourceError.noFutureHolidays :=
  (fetch_no_future_holidays [3] 5 0).1.mpr (by decide)

/-! ## Lemmas about the lexicographic order -/

theorem strLt_irrefl : ∀ s : PyStr, strLt s s = false := by
  intro s
  induction s with
  | nil => rfl
  | cons c cs ih => simp [strLt, ih, lt_irrefl]

theorem strLt_trans :
    ∀ a b c : PyStr, strLt a b = true → strLt b c = true → strLt a c = true := by
  intro a
  induction a with
  | nil =>
    intro b c hab hbc
    cases b with
    | nil => simp [strLt] at hab
    | cons y ys =>
      cases c with
      | nil => simp [strLt] at hbc
      | cons z zs => rfl
  | cons x xs ih =>
    intro b c hab hbc
    cases b with
    | nil => simp [strLt] at hab
    | cons y ys =>
      cases c with
      | nil => simp [strLt] at hbc
      | cons z zs =>
        simp only [strLt, Bool.or_eq_true, Bool.and_eq_true, decide_eq_true_eq] at hab hbc ⊢
        rcases hab with h1 | ⟨he1, h1⟩
        · rcases hbc with h2 | ⟨he2, h2⟩
          · exact Or.inl (lt_trans h1 h2)
          · subst he2; exact Or.inl h1
        · subst he1
          rcases hbc with h2 | ⟨he2, h2⟩
          · exact Or.inl h2
          · subst he2; exact Or.inr ⟨rfl, ih ys zs h1 h2⟩

theorem strLt_asymm (a b : PyStr) (h1 : strLt a b = true) (h2 : strLt b a = true) :
    False := by
  have h := strLt_trans a b a h1 h2
  rw [strLt_irrefl] at h
  exact Bool.false_ne_true h

theorem strLt_connex :
    ∀ a b : PyStr, strLt a b = false → strLt b a = false → a = b := by
  intro a
  induction a with
  | nil =>
    intro b hab _
    cases b with
    | nil => rfl
    | cons y ys => simp [strLt] at hab
  | cons x xs ih =>
    intro b hab hba
    cases b with
    | nil => simp [strLt] at hba
    | cons y ys =>
      rcases lt_trichotomy x y with h | h | h
      · exfalso
        have ht : strLt (x :: xs) (y :: ys) = true := by simp [strLt, h]
        rw [hab] at ht
        exact Bool.false_ne_true ht
      · subst h
        cases hxs : strLt xs ys with
        | true =>
          exfalso
          have ht : strLt (x :: xs) (x :: ys) = true := by simp [strLt, hxs]
          rw [hab] at ht
          exact Bool.false_ne_true ht
        | false =>
          cases hys : strLt ys xs with
          | true =>
            exfalso
            have ht : strLt (x :: ys) (x :: xs) = true := by simp [strLt, hys]
            rw [hba] at ht
            exact Bool.false_ne_true ht
          | false => rw [ih ys hxs hys]
      · exfalso
        have ht : strLt (y :: ys) (x :: xs) = true := by simp [strLt, h]
        rw [hba] at ht
        exact Bool.false_ne_true ht

theorem strLt_false_trans (x y z : PyStr) (h1 : strLt x y = false)
    (h2 : strLt y z = false) : strLt x z = false := by
  cases hxz : strLt x z with
  | false => rfl
  | true =>
    exfalso
    cases hyx : strLt y x with
    | false =>
      have hxy := strLt_connex x y h1 hyx
      subst hxy
      rw [h2] at hxz
      exact Bool.false_ne_true hxz
    | true =>
      cases hzy : strLt z y with
      | false =>
        have hyz2 := strLt_connex y z h2 hzy
        subst hyz2
        rw [h1] at hxz
        exact Bool.false_ne_true hxz
      | true =>
        have ht := strLt_trans x z y hxz hzy
        rw [h1] at ht
        exact Bool.false_ne_true ht

/-! ## Cross-multiplied ratio comparisons -/

theorem cross_le_trans {nx ny nz dx dy dz : Nat} (hdy : 0 < dy)
    (h1 : ny * dx ≤ nx * dy) (h2 : nz * dy ≤ ny * dz) : nz * dx ≤ nx * dz := by
  have h3 : nz * dx * dy ≤ nx * dz * dy := by
    calc nz * dx * dy = nz * dy * dx := by ring
    _ ≤ ny * dz * dx := Nat.mul_le_mul_right dx h2
    _ = ny * dx * dz := by ring
    _ ≤ nx * dy * dz := Nat.mul_le_mul_right dz h1
    _ = nx * dz * dy := by ring
  exact Nat.le_of_mul_le_mul_right h3 hdy

theorem cross_lt_of_lt_le {nx ny nz dx dy dz : Nat} (hdz : 0 < dz)
    (h1 : ny * dx < nx * dy) (h2 : nz * dy ≤ ny * dz) : nz * dx < nx * dz := by
  have h3 : nz * dx * dy < nx * dz * dy := by
    calc nz * dx * dy = nz * dy * dx := by ring
    _ ≤ ny * dz * dx := Nat.mul_le_mul_right dx h2
    _ = ny * dx * dz := by ring
    _ < nx * dy * dz := mul_lt_mul_of_pos_right h1 hdz
    _ = nx * dz * dy := by ring
  exact lt_of_mul_lt_mul_right h3 (Nat.zero_le dy)

theorem cross_lt_of_le_lt {nx ny nz dx dy dz : Nat} (hdx : 0 < dx)
    (h1 : ny * dx ≤ nx * dy) (h2 : nz * dy < ny * dz) : nz * dx < nx * dz := by
  have h3 : nz * dx * dy < nx * dz * dy := by
    calc nz * dx * dy = nz * dy * dx := by ring
    _ < ny * dz * dx := mul_lt_mul_of_pos_right h2 hdx
    _ = ny * dx * dz := by ring
    _ ≤ nx * dy * dz := Nat.mul_le_mul_right dz h1
    _ = nx * dz * dy := by ring
  exact lt_of_mul_lt_mul_right h3 (Nat.zero_le dy)

theorem cross_eq_trans {nx ny nz dx dy dz : Nat} (hdy : 0 < dy)
    (h1 : nx * dy = ny * dx) (h2 : ny * dz = nz * dy) : nx * dz = nz * dx := by
  have h3 : nx * dz * dy = nz * dx * dy := by
    calc nx * dz * dy = nx * dy * dz := by ring
    _ = ny * dx * dz := by rw [h1]
    _ = ny * dz * dx := by ring
    _ = nz * dy * dx := by rw [h2]
    _ = nz * dx * dy := by ring
  exact Nat.eq_of_mul_eq_mul_right hdy h3

theorem ratioDen_pos (word x : PyStr) (hw : word ≠ []) : 0 < ratioDen word x := by
  unfold ratioDen
  have h := List.length_pos.mpr hw
  omega

/-! ## The comparator is a total preorder -/

theorem closeMatchLe_total (word x y : PyStr) :
    closeMatchLe word x y = true ∨ closeMatchLe word y x = true := by
  rcases lt_trichotomy (ratioNum word y * ratioDen word x)
      (ratioNum word x * ratioDen word y) with h | h | h
  · left
    unfold closeMatchLe
    simp [h]
  · cases hxy : strLt x y with
    | true =>
      right
      have hyx : strLt y x = false := by
        cases hyx : strLt y x with
        | true => exact (strLt_asymm x y hxy hyx).elim
        | false => rfl
      unfold closeMatchLe
      simp [h, hyx]
    | false =>
      left
      unfold closeMatchLe
      simp [h, hxy]
  · right
    unfold closeMatchLe
    simp [h]

theorem closeMatchLe_trans (word : PyStr) (hw : word ≠ []) (x y z : PyStr)
    (hxy : closeMatchLe word x y = true) (hyz : closeMatchLe word y z = true) :
    closeMatchLe word x z = true := by
  unfold closeMatchLe at hxy hyz ⊢
  simp only [Bool.or_eq_true, Bool.and_eq_true, decide_eq_true_eq,
    Bool.not_eq_true'] at hxy hyz ⊢
  have hdx := ratioDen_pos word x hw
  have hdy := ratioDen_pos word y hw
  have hdz := ratioDen_pos word z hw
  rcases hxy with h1 | ⟨he1, ht1⟩
  · rcases hyz with h2 | ⟨he2, ht2⟩
    · exact Or.inl (cross_lt_of_lt_le hdz h1 (le_of_lt h2))
    · exact Or.inl (cross_lt_of_lt_le hdz h1 he2.ge)
  · rcases hyz with h2 | ⟨he2, ht2⟩
    · exact Or.inl (cross_lt_of_le_lt hdx he1.ge h2)
    · exact Or.inr ⟨cross_eq_trans hdy he1 he2, strLt_false_trans x y z ht1 ht2⟩

/-! ## The sort used for `nlargest` -/

theorem mem_insertSorted {α : Type} (le : α → α → Bool) (x z : α) :
    ∀ l : List α, z ∈ insertSorted le x l ↔ z = x ∨ z ∈ l := by
  intro l
  induction l with
  | nil => simp [insertSorted]
  | cons y ys ih =>
    unfold insertSorted
    split
    · exact List.mem_cons
    · simp only [List.mem_cons, ih]
      tauto

theorem mem_sortCands {α : Type} (le : α → α → Bool) (z : α) :
    ∀ l : List α, z ∈ sortCands le l ↔ z ∈ l := by
  intro l
  induction l with
  | nil => simp [sortCands]
  | cons y ys ih =>
    unfold sortCands
    rw [mem_insertSorted]
    simp only [List.mem_cons, ih]

theorem pairwise_insertSorted {α : Type} (le : α → α → Bool)
    (htot : ∀ a b, le a b = true ∨ le b a = true)
    (htrans : ∀ a b c, le a b = true → le b c = true → le a c = true) (x : α) :
    ∀ l : List α, List.Pairwise (fun a b => le a b = true) l →
      List.Pairwise (fun a b => le a b = true) (insertSorted le x l) := by
  intro l
  induction l with
  | nil => intro _; simp [insertSorted]
  | cons y ys ih =>
    intro hp
    unfold insertSorted
    by_cases hxy : le x y = true
    · rw [if_pos hxy]
      refine List.Pairwise.cons ?_ hp
      intro z hz
      rcases List.mem_cons.mp hz with h | h
      · subst h; exact hxy
      · exact htrans x y z hxy (List.rel_of_pairwise_cons hp h)
    · rw [if_neg hxy]
      have hyx : le y x = true := (htot x y).resolve_left hxy
      refine List.Pairwise.cons ?_ (ih (List.Pairwise.of_cons hp))
      intro z hz
      rcases (mem_insertSorted le x z ys).mp hz with h | h
      · subst h; exact hyx
      · exact List.rel_of_pairwise_cons hp h

theorem pairwise_sortCands {α : Type} (le : α → α → Bool)
    (htot : ∀ a b, le a b = true ∨ le b a = true)
    (htrans : ∀ a b c, le a b = true → le b c = true → le a c = true) :
    ∀ l : List α, List.Pairwise (fun a b => le a b = true) (sortCands le l) := by
  intro l
  induction l with
  | nil => simp [sortCands]
  | cons y ys ih =>
    unfold sortCands
    exact pairwise_insertSorted le htot htrans y (sortCands le ys) ih

/-! ## Dictionary lookups -/

theorem lookup_isSome_of_mem_keys :
    ∀ (d : StreetsDict) (k : PyStr), k ∈ d.map (fun kv => kv.1) →
      ∃ v, d.lookup k = some v := by
  intro d
  induction d with
  | nil => intro k hk; simp at hk
  | cons kv rest ih =>
    intro k hk
    rcases kv with ⟨k1, v1⟩
    by_cases h : k = k1
    · subst h
      exact ⟨v1, by simp [List.lookup]⟩
    · simp only [List.map_cons, List.mem_cons] at hk
      rcases hk with h1 | h1
      · exact absurd h1 h
      · obtain ⟨v, hv⟩ := ih k h1
        have hbeq : (k == k1) = false := beq_eq_false_iff_ne.mpr h
        refine ⟨v, ?_⟩
        simp [List.lookup, hbeq, hv]

theorem lookup_mem_values :
    ∀ (d : StreetsDict) (k : PyStr) (v : Nat), d.lookup k = some v →
      v ∈ d.map (fun kv => kv.2) := by
  intro d
  induction d with
  | nil => intro k v h; simp [List.lookup] at h
  | cons kv rest ih =>
    intro k v h
    rcases kv with ⟨k1, v1⟩
    by_cases hk : k = k1
    · subst hk
      simp [List.lookup] at h
      subst h
      simp
    · have hbeq : (k == k1) = false := beq_eq_false_iff_ne.mpr hk
      simp [List.lookup, hbeq] at h
      simp only [List.map_cons, List.mem_cons]
      exact Or.inr (ih k v h)

theorem mem_getCloseMatches (word : PyStr) (poss : List PyStr) (n : Nat) (x : PyStr)
    (hx : x ∈ getCloseMatches word poss n) : x ∈ poss := by
  unfold getCloseMatches at hx
  have h1 := (List.take_sublist n _).subset hx
  have h2 := (mem_sortCands (closeMatchLe word) x _).mp h1
  exact (List.mem_filter.mp h2).1

/-! ## Directory values are weekdays -/

theorem dictInsert_values (P : Nat → Prop) (d : StreetsDict) (k : PyStr) (v : Nat)
    (hd : ∀ kv ∈ d, P kv.2) (hv : P v) : ∀ kv ∈ dictInsert d k v, P kv.2 := by
  intro kv hkv
  unfold dictInsert at hkv
  split at hkv
  · rcases List.mem_map.mp hkv with ⟨kv0, hkv0, heq⟩
    by_cases h : (kv0.1 == k) = true
    · rw [if_pos h] at heq
      rw [← heq]
      exact hv
    · rw [if_neg h] at heq
      rw [← heq]
      exact hd kv0 hkv0
  · rcases List.mem_append.mp hkv with h | h
    · exact hd kv h
    · simp at h
      rw [h]
      exact hv

theorem foldl_preserves {β : Type} (f : StreetsDict → β → StreetsDict) (P : Nat → Prop)
    (hf : ∀ d b, (∀ kv ∈ d, P kv.2) → ∀ kv ∈ f d b, P kv.2) :
    ∀ (l : List β) (d : StreetsDict), (∀ kv ∈ d, P kv.2) →
      ∀ kv ∈ l.foldl f d, P kv.2 := by
  intro l
  induction l with
  | nil => intro d hd; exact hd
  | cons b bs ih =>
    intro d hd
    exact ih (f d b) (hf d b hd)

theorem weekdayMap_lookup_le (s : PyStr) (w : Nat)
    (h : weekdayMap.lookup s = some w) : w ≤ 6 := by
  have hm := lookup_mem_values weekdayMap s w h
  simp [weekdayMap] at hm
  omega

theorem processSub_le (main : PyStr) (d : StreetsDict) (s : PyStr)
    (hd : ∀ kv ∈ d, kv.2 ≤ 6) : ∀ kv ∈ processSub main d s, kv.2 ≤ 6 := by
  unfold processSub
  split
  · exact hd
  · split
    · rename_i seg day w hw
      exact dictInsert_values (fun v => v ≤ 6) d _ w hd (weekdayMap_lookup_le _ w hw)
    · exact hd

theorem processLi_le (d : StreetsDict) (li : LiItem)
    (hd : ∀ kv ∈ d, kv.2 ≤ 6) : ∀ kv ∈ processLi d li, kv.2 ≤ 6 := by
  unfold processLi
  split
  · split
    · exact foldl_preserves _ (fun v => v ≤ 6)
        (fun d0 b0 hd0 => processSub_le _ d0 b0 hd0) _ d hd
    · exact hd
  · split
    · exact hd
    · split
      · rename_i street day w hw
        exact dictInsert_values (fun v => v ≤ 6) d _ w hd (weekdayMap_lookup_le _ w hw)
      · exact hd

theorem parseStreets_le : ∀ uls, ∀ kv ∈ parseStreets uls, kv.2 ≤ 6 := by
  intro uls
  unfold parseStreets
  refine foldl_preserves (fun d ul => ul.foldl processLi d) (fun v => v ≤ 6) ?_ uls []
    (by simp)
  intro d ul hd
  exact foldl_preserves processLi (fun v => v ≤ 6)
    (fun d0 li hd0 => processLi_le d0 li hd0) ul d hd

/-! ## Case analysis of the matcher -/

/-- On a loaded directory whose values are weekdays, `_get_normal_pickup_day`
either raises an argument error or returns a weekday value of the directory —
never `None`. -/
theorem getNormalPickupDay_cases (inputStreet : PyStr) (d : StreetsDict)
    (hv : ∀ kv ∈ d, kv.2 ≤ 6) :
    (∃ e, getNormalPickupDay inputStreet (some d) = Except.error e) ∨
    (∃ v, getNormalPickupDay inputStreet (some d) = Except.ok (some v) ∧ v ≤ 6 ∧
      v ∈ d.map (fun kv => kv.2)) := by
  simp only [getNormalPickupDay]
  by_cases hemp : d.isEmpty
  · rw [if_pos hemp]
    exact Or.inl ⟨_, rfl⟩
  · rw [if_neg hemp]
    cases hl : d.lookup inputStreet with
    | some v =>
      right
      refine ⟨v, rfl, ?_, lookup_mem_values d _ v hl⟩
      rcases List.mem_map.mp (lookup_mem_values d _ v hl) with ⟨kv, hkv, hkveq⟩
      rw [← hkveq]
      exact hv kv hkv
    | none =>
      by_cases h1 : (getCloseMatches inputStreet (d.map (fun kv => kv.1)) 5).length = 1
      · rw [if_pos h1]
        right
        obtain ⟨m, hm⟩ := List.length_eq_one.mp h1
        have hmk : m ∈ d.map (fun kv => kv.1) := by
          apply mem_getCloseMatches inputStreet _ 5
          rw [hm]
          exact List.mem_singleton_self m
        obtain ⟨v, hv'⟩ := lookup_isSome_of_mem_keys d m hmk
        have hhead : (getCloseMatches inputStreet (d.map (fun kv => kv.1)) 5).headD [] = m := by
          rw [hm]; rfl
        refine ⟨v, ?_, ?_, lookup_mem_values d m v hv'⟩
        · rw [hhead, hv']
        · rcases List.mem_map.mp (lookup_mem_values d m v hv') with ⟨kv, hkv, hkveq⟩
          rw [← hkveq]
          exact hv kv hkv
      · rw [if_neg h1]
        by_cases h2 : 1 < (getCloseMatches inputStreet (d.map (fun kv => kv.1)) 5).length
        · rw [if_pos h2]
          exact Or.inl ⟨_, rfl⟩
        · rw [if_neg h2]
          exact Or.inl ⟨_, rfl⟩

/-- Parsing a single multi-segment list item folds `processSub` over the
nested items, keyed by the lowercased, stripped pre-colon text. -/
theorem parse_single_nested (main : PyStr) (subs : List PyStr)
    (hcolon : (':' : Char) ∈ main) :
    parseStreets [[⟨main, some subs⟩]] =
      subs.foldl
        (processSub (stripStr (lowerStr (main.takeWhile (fun c => decide (c ≠ ':')))))) [] := by
  unfold parseStreets
  simp only [List.foldl_cons, List.foldl_nil]
  show processLi [] ⟨main, some subs⟩ = _
  unfold processLi
  dsimp only
  rw [if_pos hcolon]

/-! ## Claim C2 -/

/-- C2: the sequence of dates emitted during `fetch` is non-decreasing
(chronological): for the generation loop on any arguments with a valid
weekday, for every successful run of the holiday stage, and for every
successful run of `fetch` on a directory whose values are weekdays. -/
theorem fetch_dates_monotone :
    (∀ f pd today endD cur, pd ≤ 6 →
      List.Pairwise (fun a b => a.date ≤ b.date) (fetchLoop f pd today endD cur)) ∧
    (∀ holidays today pd l, pd ≤ 6 → fetchAfterMatch holidays today pd = Except.ok l →
      List.Pairwise (fun a b => a.date ≤ b.date) l) ∧
    (∀ inputStreet d holidays today l, (∀ kv ∈ d, kv.2 ≤ 6) →
      fetch inputStreet (some d) holidays today = Except.ok l →
      List.Pairwise (fun a b => a.date ≤ b.date) l) := by
  refine ⟨?_, ?_, ?_⟩
  · intro f pd today endD cur hpd
    exact pairwise_fetchLoopAux f pd today endD hpd (endD + 1) cur
  · intro holidays today pd l hpd hfetch
    exact fetchAfterMatch_pairwise holidays today pd l hpd hfetch
  · intro inputStreet d holidays today l hv hfetch
    rcases getNormalPickupDay_cases inputStreet d hv with ⟨e, he⟩ | ⟨v, hok, hle, _⟩
    · unfold fetch at hfetch
      rw [he] at hfetch
      exact absurd hfetch (by simp)
    · unfold fetch at hfetch
      rw [hok] at hfetch
      exact fetchAfterMatch_pairwise holidays today v l hle hfetch

theorem fetch_dates_monotone_witness :
    List.Pairwise (fun a b => a.date ≤ b.date) (fetchLoop [0] 0 0 3 0) :=
  fetch_dates_monotone.1 [0] 0 0 3 0 (by decide)

/-! ## Claim C7 -/

/-- C7: when the street directory fails to load (`None`) or loads empty,
matching fails with the plain "not found" condition — no suggestion payload —
for every input street. -/
theorem match_empty_directory_not_found (inputStreet : PyStr) :
    getNormalPickupDay inputStreet none =
      Except.error (SourceError.argumentNotFound ("street")) ∧
    getNormalPickupDay inputStreet (some []) =
      Except.error (SourceError.argumentNotFound ("street")) := by
  exact ⟨rfl, rfl⟩

/-! ## Claim C5 -/

/-- C5: on a non-empty directory, when the normalized input is not an exact
key and fuzzy matching returns no candidate, the matcher fails with the
"not found with suggestions" condition whose payload is the full key list of
the directory (no truncation). -/
theorem match_zero_candidates_suggestions (inputStreet : PyStr) (d : StreetsDict)
    (hne : d ≠ []) (hexact : d.lookup inputStreet = none)
    (hfuzzy : getCloseMatches inputStreet (d.map (fun kv => kv.1)) 5 = []) :
    getNormalPickupDay inputStreet (some d) =
      Except.error (SourceError.argumentNotFoundWithSuggestions ("street") inputStreet
        (d.map (fun kv => kv.1))) := by
  simp only [getNormalPickupDay]
  rw [if_neg (by simp [List.isEmpty_iff, hne])]
  rw [hexact, hfuzzy]
  simp

theorem match_zero_candidates_suggestions_witness :
    getNormalPickupDay (['z']) (some [((['a', 'b']), 2)]) =
      Except.error (SourceError.argumentNotFoundWithSuggestions ("street") (['z'])
        ([(['a', 'b'], 2)].map (fun kv => kv.1))) :=
  match_zero_candidates_suggestions (['z']) ([((['a', 'b']), 2)])
    (by decide) (by decide) (by decide)

/-! ## Claim C6 -/

/-- C6: on a non-empty directory, for a normalized (hence non-empty) input
that is not an exact key, fuzzy matching returns at most 5 candidates, each
meeting the 0.7 similarity cutoff, ranked by non-increasing similarity ratio;
exactly one candidate resolves to that entry's weekday, and two or more fail
with the "ambiguous" condition carrying exactly the candidate list. -/
theorem match_fuzzy_candidates (inputStreet : PyStr) (d : StreetsDict)
    (hw : inputStreet ≠ []) (hne : d ≠ []) (hexact : d.lookup inputStreet = none) :
    (getCloseMatches inputStreet (d.map (fun kv => kv.1)) 5).length ≤ 5 ∧
    (∀ x ∈ getCloseMatches inputStreet (d.map (fun kv => kv.1)) 5,
      7 * ratioDen inputStreet x ≤ 10 * ratioNum inputStreet x) ∧
    List.Pairwise
      (fun x y => ratioNum inputStreet y * ratioDen inputStreet x ≤
        ratioNum inputStreet x * ratioDen inputStreet y)
      (getCloseMatches inputStreet (d.map (fun kv => kv.1)) 5) ∧
    ((getCloseMatches inputStreet (d.map (fun kv => kv.1)) 5).length = 1 →
      (∃ v, d.lookup ((getCloseMatches inputStreet (d.map (fun kv => kv.1)) 5).headD [])
          = some v) ∧
      getNormalPickupDay inputStreet (some d) =
        Except.ok (d.lookup
          ((getCloseMatches inputStreet (d.map (fun kv => kv.1)) 5).headD []))) ∧
    (2 ≤ (getCloseMatches inputStreet (d.map (fun kv => kv.1)) 5).length →
      getNormalPickupDay inputStreet (some d) =
        Except.error (SourceError.argAmbiguousWithSuggestions ("street") inputStreet
          (getCloseMatches inputStreet (d.map (fun kv => kv.1)) 5))) := by
  refine ⟨?_, ?_, ?_, ?_, ?_⟩
  · unfold getCloseMatches
    exact List.length_take_le 5 _
  · intro x hx
    unfold getCloseMatches at hx
    have h1 := (List.take_sublist 5 _).subset hx
    have h2 := (mem_sortCands (closeMatchLe inputStreet) x _).mp h1
    have h3 := (List.mem_filter.mp h2).2
    simpa using h3
  · have hp := pairwise_sortCands (closeMatchLe inputStreet)
      (fun a b => closeMatchLe_total inputStreet a b)
      (fun a b c => closeMatchLe_trans inputStreet hw a b c)
      ((d.map (fun kv => kv.1)).filter
        (fun x => decide (7 * ratioDen inputStreet x ≤ 10 * ratioNum inputStreet x)))
    have hp2 := List.Pairwise.sublist (List.take_sublist 5 _) hp
    unfold getCloseMatches
    refine List.Pairwise.imp ?_ hp2
    intro a b hab
    unfold closeMatchLe at hab
    simp only [Bool.or_eq_true, Bool.and_eq_true, decide_eq_true_eq] at hab
    rcases hab with h | ⟨h, _⟩
    · exact le_of_lt h
    · exact le_of_eq h.symm
  · intro h1
    obtain ⟨m, hm⟩ := List.length_eq_one.mp h1
    have hmk : m ∈ d.map (fun kv => kv.1) := by
      apply mem_getCloseMatches inputStreet _ 5
      rw [hm]
      exact List.mem_singleton_self m
    obtain ⟨v, hv⟩ := lookup_isSome_of_mem_keys d m hmk
    constructor
    · rw [hm]
      exact ⟨v, hv⟩
    · simp only [getNormalPickupDay]
      rw [if_neg (by simp [List.isEmpty_iff, hne])]
      rw [hexact]
      rw [if_pos h1]
  · intro h2
    simp only [getNormalPickupDay]
    rw [if_neg (by simp [List.isEmpty_iff, hne])]
    rw [hexact]
    rw [if_neg (by omega)]
    rw [if_pos (by omega)]

theorem match_fuzzy_candidates_witness :
    getNormalPickupDay ("abc".toList) (some [(("abcd".toList), 2)]) =
      Except.ok ([(("abcd".toList), 2)].lookup
        ((getCloseMatches ("abc".toList)
          ([(("abcd".toList), 2)].map (fun kv => kv.1)) 5).headD [])) :=
  ((match_fuzzy_candidates ("abc".toList) ([(("abcd".toList), 2)])
      (by decide) (by decide) (by decide)).2.2.2.1 (by decide)).2

/-! ## Claim C8 -/

/-- C8: a top-level list item with a nested list is a multi-segment street:
its pre-colon text (lowercased, stripped) is the main street; each nested
`"<segment> - <WEEKDAY>"` produces the key `"<main> (<segment lowered>)"`
mapped to the weekday parsed case-insensitively; nested items without the
`" - "` separator or with an unrecognized weekday are skipped with no error;
in particular `"Bedford Street: "` with nested
`"Battlegreen to Revere St - MONDAY"` yields
`"bedford street (battlegreen to revere st)" → 0`. -/
theorem parse_streets_nested_segments :
    parseStreets [[⟨"Bedford Street: ".toList,
        some ["Battlegreen to Revere St - MONDAY".toList]⟩]] =
      [("bedford street (battlegreen to revere st)".toList, 0)] ∧
    (∀ main subs sub, (':' : Char) ∈ main → rsplitOnce (" - ".toList) sub = none →
      parseStreets [[⟨main, some (subs ++ [sub])⟩]] =
        parseStreets [[⟨main, some subs⟩]]) ∧
    (∀ main subs sub seg day, (':' : Char) ∈ main →
      rsplitOnce (" - ".toList) sub = some (seg, day) →
      weekdayMap.lookup (upperStr day) = none →
      parseStreets [[⟨main, some (subs ++ [sub])⟩]] =
        parseStreets [[⟨main, some subs⟩]]) ∧
    (∀ main subs sub seg day w, (':' : Char) ∈ main →
      rsplitOnce (" - ".toList) sub = some (seg, day) →
      weekdayMap.lookup (upperStr day) = some w →
      parseStreets [[⟨main, some (subs ++ [sub])⟩]] =
        dictInsert (parseStreets [[⟨main, some subs⟩]])
          (stripStr (lowerStr (main.takeWhile (fun c => decide (c ≠ ':')))) ++ " (".toList
            ++ stripStr (lowerStr seg) ++ ")".toList) w) := by
  refine ⟨by decide, ?_, ?_, ?_⟩
  · intro main subs sub hcolon hsep
    rw [parse_single_nested main (subs ++ [sub]) hcolon,
      parse_single_nested main subs hcolon]
    rw [List.foldl_append]
    simp only [List.foldl_cons, List.foldl_nil]
    unfold processSub
    rw [hsep]
  · intro main subs sub seg day hcolon hsep hday
    rw [parse_single_nested main (subs ++ [sub]) hcolon,
      parse_single_nested main subs hcolon]
    rw [List.foldl_append]
    simp only [List.foldl_cons, List.foldl_nil]
    unfold processSub
    rw [hsep]
    dsimp only
    rw [hday]
  · intro main subs sub seg day w hcolon hsep hday
    rw [parse_single_nested main (subs ++ [sub]) hcolon,
      parse_single_nested main subs hcolon]
    rw [List.foldl_append]
    simp only [List.foldl_cons, List.foldl_nil]
    unfold processSub
    rw [hsep]
    dsimp only
    rw [hday]

theorem parse_streets_nested_segments_witness :
    parseStreets [[⟨"a: ".toList, some ["xy".toList]⟩]] =
      parseStreets [[⟨"a: ".toList, some []⟩]] :=
  parse_streets_nested_segments.2.1 ("a: ".toList) [] ("xy".toList)
    (by decide) (by decide)

/-! ## Claim C9 -/

/-- C9: `_get_normal_pickup_day` never returns `None`: every directory the
parser can produce maps to weekdays `0..6`; on any such directory the matcher
either raises an argument error or returns a weekday value of the directory (a
value of `WEEKDAY_MAP`); consequently the `None`-check branch of `fetch`
(lines 76-78) is unreachable — `fetch` either propagates the matcher's error
or runs the generator on the returned weekday. -/
theorem pickup_day_total :
    (∀ uls, ∀ kv ∈ parseStreets uls, kv.2 ≤ 6) ∧
    (∀ inputStreet d, (∀ kv ∈ d, kv.2 ≤ 6) →
      getNormalPickupDay inputStreet (some d) ≠ Except.ok none ∧
      ((∃ e, getNormalPickupDay inputStreet (some d) = Except.error e) ∨
       (∃ v, getNormalPickupDay inputStreet (some d) = Except.ok (some v) ∧ v ≤ 6 ∧
         v ∈ d.map (fun kv => kv.2)))) ∧
    (∀ inputStreet d holidays today, (∀ kv ∈ d, kv.2 ≤ 6) →
      (∃ e, getNormalPickupDay inputStreet (some d) = Except.error e ∧
        fetch inputStreet (some d) holidays today = Except.error e) ∨
      (∃ pd, getNormalPickupDay inputStreet (some d) = Except.ok (some pd) ∧ pd ≤ 6 ∧
        fetch inputStreet (some d) holidays today = fetchAfterMatch holidays today pd)) := by
  refine ⟨parseStreets_le, ?_, ?_⟩
  · intro inputStreet d hv
    rcases getNormalPickupDay_cases inputStreet d hv with ⟨e, he⟩ | ⟨v, hok, hle, hmem⟩
    · constructor
      · rw [he]; simp
      · exact Or.inl ⟨e, he⟩
    · constructor
      · rw [hok]; simp
      · exact Or.inr ⟨v, hok, hle, hmem⟩
  · intro inputStreet d holidays today hv
    rcases getNormalPickupDay_cases inputStreet d hv with ⟨e, he⟩ | ⟨v, hok, hle, hmem⟩
    · left
      refine ⟨e, he, ?_⟩
      unfold fetch
      rw [he]
    · right
      refine ⟨v, hok, hle, ?_⟩
      unfold fetch
      rw [hok]

theorem pickup_day_total_witness :
    getNormalPickupDay (['a']) (some [((['a']), 3)]) ≠ Except.ok none :=
  (pickup_day_total.2.1 (['a']) ([((['a']), 3)]) (by decide)).1
